import Mathlib

/-!
Shallow embedding of the multi-agent orchestration core of the repository:
the per-agent reasoning loop (`BaseAgent.reason` in
`Slackbot/src/agents/base-agent.ts`), the tool registry/dispatcher
(`MCPServer` in `Slackbot/src/mcp/mcp-server.ts`), the inter-agent message
queue tool (`ToolRegistry.createSendAgentMessageTool`) and the queue poller
(`AgentManager.processPendingMessages` in `Slackbot/src/agents/agent-manager.ts`).

External collaborators (the LLM completion call, `JSON.parse`/`JSON.stringify`,
the embedding/vector pipeline behind `RAGEngine.storeMemory`, the relational
store behind Prisma) are modelled as abstract functions supplied through an
environment record; JavaScript exceptions are modelled with `Except String`
(the error's `message`).
-/

/-! ### Character and list utilities (model of the JS regex primitives) -/

/-- Whitespace test modelling the `\s` character class of the JavaScript
regular expressions in `base-agent.ts`, restricted to the ASCII whitespace
characters (this matches Lean's `Char.isWhitespace`). -/
def isWsChar (c : Char) : Bool := c = ' ' || c = '\t' || c = '\r' || c = '\n'

/-- Word-character test modelling the `\w` class `[A-Za-z0-9_]`. -/
def isWordChar (c : Char) : Bool := c.isAlphanum || c = '_'

/-- Exact prefix test on character lists. -/
def listStarts : List Char → List Char → Bool
  | [], _ => true
  | _ :: _, [] => false
  | p :: ps, c :: cs => if p = c then listStarts ps cs else false

/-- Case-insensitive prefix test (models the `i` regex flag). -/
def listStartsCI : List Char → List Char → Bool
  | [], _ => true
  | _ :: _, [] => false
  | p :: ps, c :: cs => if p.toLower = c.toLower then listStartsCI ps cs else false

/-- Substring occurrence test on character lists. -/
def containsSub (pat : List Char) : List Char → Bool
  | [] => listStarts pat []
  | c :: cs => listStarts pat (c :: cs) || containsSub pat cs

/-! ### Leftmost-match semantics of the labelled-line regexes

`base-agent.ts` extracts fields with regexes of the form
`/Label:\s*(.+?)(?=\n|$)/i` (with the `s` dot-all flag for `Observation:`).
`tailCapture` computes the captured group of `\s*(.+?)(?=\n|$)` at one
occurrence of the label, including the greedy-backtracking corner case in
which only whitespace remains; `matchLabel` scans label occurrences left to
right and returns the first with a viable capture, which is exactly the JS
leftmost-match behaviour. -/

/-- Captured group of `\s*(.+?)(?=\n|$)` applied to the text after a label.
With characters left after the whitespace run, the group runs from the first
non-whitespace character to the next newline (or the end).  When only
whitespace remains, greedy backtracking of `\s*` leaves a single-character
group: the last whitespace character (dot-all), or the last one that is not a
newline (plain), or no match at all. -/
def tailCapture (dotAll : Bool) (t : List Char) : Option (List Char) :=
  let r := t.dropWhile isWsChar
  if r.isEmpty then
    let w := t.takeWhile isWsChar
    if dotAll then w.getLast?.map (fun c => [c])
    else (w.reverse.find? (fun c => !(c = '\n'))).map (fun c => [c])
  else some (r.takeWhile (fun c => !(c = '\n')))

/-- Leftmost case-insensitive match of `/pat\s*(.+?)(?=\n|$)/` (captured
group), with `dotAll` selecting the `s` flag used by the `Observation:`
regex. -/
def matchLabel (pat : String) (dotAll : Bool) (s : String) : Option String :=
  let cs := s.toList
  let ps := pat.toList
  let occs := (List.range (cs.length + 1)).filter (fun i => listStartsCI ps (cs.drop i))
  ((occs.filterMap (fun i => tailCapture dotAll (cs.drop (i + ps.length)))).head?).map
    (fun l => String.mk l)

/-- Test for `\n\w+:` at the head of a list (the lookahead of the `ToolInput:`
regex). -/
def nlWordColon : List Char → Bool
  | '\n' :: rest =>
      let run := rest.takeWhile isWordChar
      (!run.isEmpty) &&
        (match rest.drop run.length with
          | ':' :: _ => true
          | _ => false)
  | _ => false

/-- Test for `\s*(?=\n\w+:|$)` succeeding on the text after the captured
braces: either everything left is whitespace (the `$` branch) or, after some
prefix of the whitespace run, a newline followed by a label line starts. -/
def afterBraceOk (u : List Char) : Bool :=
  let w := u.takeWhile isWsChar
  (w.length == u.length) || ((List.range (w.length + 1)).any (fun l => nlWordColon (u.drop l)))

/-- True when the character at index `k` is a closing brace. -/
def braceCloseAt (r : List Char) (k : Nat) : Bool :=
  match r.drop k with
  | '\x7d' :: _ => true
  | _ => false

/-- Captured group of `\s*(\{[\s\S]*?\})\s*(?=\n\w+:|$)` after one occurrence
of `ToolInput:`: skip whitespace, require an opening brace, and take the lazy
(smallest) closing brace whose trailing context matches the lookahead. -/
def toolInputCapture (t : List Char) : Option (List Char) :=
  let r := t.dropWhile isWsChar
  match r with
  | '\x7b' :: _ =>
      (((List.range r.length).filter
          (fun k => braceCloseAt r k && afterBraceOk (r.drop (k + 1)))).head?).map
        (fun k => r.take (k + 1))
  | _ => none

/-- Leftmost match of `/ToolInput:\s*(\{[\s\S]*?\})\s*(?=\n\w+:|$)/i`
(captured group), modelling `toolInputMatch` in `parseReasoningStep`. -/
def matchToolInput (s : String) : Option String :=
  let cs := s.toList
  let ps := "ToolInput:".toList
  let occs := (List.range (cs.length + 1)).filter (fun i => listStartsCI ps (cs.drop i))
  ((occs.filterMap (fun i => toolInputCapture (cs.drop (i + ps.length)))).head?).map
    (fun l => String.mk l)

/-! ### The secondary delegation-shaped extraction

`parseReasoningStep` falls back to
`/\{[\s\S]*"to"[\s\S]*"intent"[\s\S]*"payload"[\s\S]*\}/` when the primary
`ToolInput` JSON fails to parse.  The greedy `[\s\S]*` groups are resolved
left to right: each takes the last occurrence of the following literal that
still lets the rest of the pattern match. -/

/-- First occurrence of `pat` in `cs` at index `i` or later. -/
def firstOccFrom (pat cs : List Char) (i : Nat) : Option Nat :=
  ((List.range (cs.length + 1)).filter
    (fun k => decide (i ≤ k) && listStarts pat (cs.drop k))).head?

/-- Last occurrence of `pat` in `cs` at index `i` or later whose position
satisfies `cond`. -/
def lastOccFromWhere (pat cs : List Char) (i : Nat) (cond : Nat → Bool) : Option Nat :=
  ((List.range (cs.length + 1)).filter
    (fun k => decide (i ≤ k) && listStarts pat (cs.drop k) && cond k)).getLast?

/-- Literal `"to"` (four characters, quotes included). -/
def toPat : List Char := '"' :: 't' :: 'o' :: '"' :: []

/-- Literal `"intent"` (eight characters, quotes included). -/
def intentPat : List Char := '"' :: 'i' :: 'n' :: 't' :: 'e' :: 'n' :: 't' :: '"' :: []

/-- Literal `"payload"` (nine characters, quotes included). -/
def payloadPat : List Char := '"' :: 'p' :: 'a' :: 'y' :: 'l' :: 'o' :: 'a' :: 'd' :: '"' :: []

/-- Literal closing brace. -/
def closePat : List Char := '\x7d' :: []

/-- Feasibility of `"payload"[\s\S]*\}` from index `j`. -/
def chainTail3 (cs : List Char) (j : Nat) : Bool :=
  match firstOccFrom payloadPat cs j with
  | none => false
  | some k3 => (firstOccFrom closePat cs (k3 + 9)).isSome

/-- Feasibility of `"intent"[\s\S]*"payload"[\s\S]*\}` from index `j`. -/
def chainTail2 (cs : List Char) (j : Nat) : Bool :=
  match firstOccFrom intentPat cs j with
  | none => false
  | some k2 => chainTail3 cs (k2 + 8)

/-- Feasibility of the whole `"to"…"intent"…"payload"…\}` chain from index
`j`. -/
def chainTail1 (cs : List Char) (j : Nat) : Bool :=
  match firstOccFrom toPat cs j with
  | none => false
  | some k1 => chainTail2 cs (k1 + 4)

/-- True when the character at index `i` is an opening brace. -/
def braceOpenAt (cs : List Char) (i : Nat) : Bool :=
  match cs.drop i with
  | '\x7b' :: _ => true
  | _ => false

/-- Match of `/\{[\s\S]*"to"[\s\S]*"intent"[\s\S]*"payload"[\s\S]*\}/` as a
string: leftmost viable opening brace, then greedy (latest feasible)
positions for the quoted keys, then the last closing brace. -/
def secondaryMatch (s : String) : Option String :=
  let cs := s.toList
  match ((List.range cs.length).filter
      (fun i => braceOpenAt cs i && chainTail1 cs (i + 1))).head? with
  | none => none
  | some start =>
    match lastOccFromWhere toPat cs (start + 1) (fun k1 => chainTail2 cs (k1 + 4)) with
    | none => none
    | some k1 =>
      match lastOccFromWhere intentPat cs (k1 + 4) (fun k2 => chainTail3 cs (k2 + 8)) with
      | none => none
      | some k2 =>
        match lastOccFromWhere payloadPat cs (k2 + 8)
            (fun k3 => (firstOccFrom closePat cs (k3 + 9)).isSome) with
        | none => none
        | some k3 =>
          match lastOccFromWhere closePat cs (k3 + 9) (fun _ => true) with
          | none => none
          | some k4 => some (String.mk ((cs.drop start).take (k4 + 1 - start)))

/-! ### JSON values and JavaScript truthiness helpers -/

/-- JSON values, the result type of the abstract `JSON.parse` collaborator. -/
inductive Json where
  | null
  | bool (b : Bool)
  | num (n : Int)
  | str (s : String)
  | arr (elems : List Json)
  | obj (fields : List (String × Json))

/-- JavaScript `String.prototype.trim`: strip whitespace from both ends. -/
def trimString (s : String) : String :=
  String.mk (((s.toList.dropWhile isWsChar).reverse.dropWhile isWsChar).reverse)

/-- JavaScript `x || d` for a possibly-undefined string `x` (both `undefined`
and the empty string are falsy). -/
def jsOr : Option String → String → String
  | none, d => d
  | some s, d => if s.isEmpty then d else s

/-! ### Reasoning steps and `parseReasoningStep` -/

/-- The four legal actions of a reasoning step. -/
inductive ActionType where
  | tool_call
  | respond
  | delegate
  | wait
  deriving DecidableEq, Repr

/-- One parsed thought/action/tool/observation unit (`ReasoningStep` in
`types/index.ts`). -/
structure ReasoningStep where
  thought : String
  action : ActionType
  tool : Option String := none
  toolInput : Option Json := none
  observation : Option String := none

/-- Model of `BaseAgent.parseAction`: lower-case the extracted action text
(character-wise, as `toLowerCase` does on this ASCII vocabulary) and look for
the keywords `tool`, `delegate`, `wait`, defaulting to `respond`. -/
def parseAction (actionStr : String) : ActionType :=
  let normalized := actionStr.toList.map Char.toLower
  if containsSub "tool".toList normalized then ActionType.tool_call
  else if containsSub "delegate".toList normalized then ActionType.delegate
  else if containsSub "wait".toList normalized then ActionType.wait
  else ActionType.respond

/-- Model of `BaseAgent.parseReasoningStep`, parameterised by the abstract
`JSON.parse` collaborator (`jsonParse` returns `none` when `JSON.parse`
throws).  The labelled fields are extracted with the leftmost-match regex
models above; a `tool_call` step whose primary `ToolInput` capture fails to
parse falls back to the secondary delegation-shaped extraction, and keeps
`toolInput` undefined when that also fails. -/
def parseReasoningStep (jsonParse : String → Option Json) (response : String) : ReasoningStep :=
  let thoughtMatch := matchLabel "Thought:" false response
  let actionMatch := matchLabel "Action:" false response
  let toolMatch := matchLabel "Tool:" false response
  let toolInputMatch := matchToolInput response
  let observationMatch := matchLabel "Observation:" true response
  let thought := jsOr (thoughtMatch.map trimString) "Analyzing the situation"
  let action := parseAction (jsOr (actionMatch.map trimString) "respond")
  let tool := if action = ActionType.tool_call then toolMatch.map trimString else none
  let toolInput :=
    if action = ActionType.tool_call then
      match toolInputMatch with
      | none => none
      | some g =>
        match jsonParse (trimString g) with
        | some j => some j
        | none =>
          match secondaryMatch response with
          | none => none
          | some g2 => jsonParse g2
    else none
  let observation := observationMatch.map trimString
  { thought := thought, action := action, tool := tool,
    toolInput := toolInput, observation := observation }

/-! ### Tool registry and dispatcher (`mcp-server.ts`) -/

/-- A registered tool (`MCPTool` in `types/index.ts`): name, description,
parameter schema, and a handler whose JavaScript exceptions are modelled as
`Except.error` carrying the error message. -/
structure MCPTool where
  name : String
  description : String
  parameters : Json
  handler : Json → Except String Json

/-- The tool catalog.  A JavaScript `Map` keyed by tool name is modelled as a
list unique by name in insertion order; `Map.set` on an existing key replaces
the entry in place. -/
structure MCPServer where
  tools : List MCPTool

/-- JavaScript `Map.set` keyed by `tool.name`: replace in place when the name
is present, otherwise append. -/
def mapSet : List MCPTool → MCPTool → List MCPTool
  | [], t => [t]
  | t' :: rest, t => if t'.name = t.name then t :: rest else t' :: mapSet rest t

/-- Lookup in the catalog (`Map.get`). -/
def findTool : List MCPTool → String → Option MCPTool
  | [], _ => none
  | t :: rest, n => if t.name = n then some t else findTool rest n

/-- Model of `MCPServer.registerTool`: warns (not modelled) when the name is
already present and then overwrites it; never an error. -/
def MCPServer.registerTool (s : MCPServer) (tool : MCPTool) : MCPServer :=
  { tools := mapSet s.tools tool }

/-- Model of `MCPServer.getTool`. -/
def MCPServer.getTool (s : MCPServer) (name : String) : Option MCPTool :=
  findTool s.tools name

/-- Model of `MCPServer.getAllTools` (the map's values in insertion order). -/
def MCPServer.getAllTools (s : MCPServer) : List MCPTool :=
  s.tools

/-- One entry of `getToolDefinitions`' result: the constant `type: 'function'`
wrapper around the tool's name, description and parameter schema. -/
structure ToolDefinition where
  type : String
  name : String
  description : String
  parameters : Json

/-- The `{type, function: {name, description, parameters}}` record built for
one tool. -/
def mkToolDefinition (t : MCPTool) : ToolDefinition :=
  { type := "function", name := t.name, description := t.description,
    parameters := t.parameters }

/-- Model of `MCPServer.getToolDefinitions`: with a whitelist, map each name
through the catalog and silently drop the unregistered ones
(`map(...).filter(Boolean)` is `filterMap`); without one, use all tools. -/
def MCPServer.getToolDefinitions (s : MCPServer) (toolNames : Option (List String)) :
    List ToolDefinition :=
  let tools := match toolNames with
    | some names => names.filterMap (fun n => s.getTool n)
    | none => s.getAllTools
  tools.map mkToolDefinition

/-- Model of `MCPServer.executeTool`: look the tool up, failing with a
`Tool not found` error when absent; otherwise invoke the handler, whose
outcome (result or thrown error) is passed through unchanged — the inner
`try/catch` only logs and rethrows.  The registry is returned alongside to
make explicit that execution never mutates it. -/
def MCPServer.executeTool (s : MCPServer) (toolName : String) (params : Json) :
    MCPServer × Except String Json :=
  match s.getTool toolName with
  | none => (s, Except.error ("Tool not found: " ++ toolName))
  | some t => (s, t.handler params)

/-! ### The reasoning loop (`BaseAgent.reason`) -/

/-- Agent configuration (`AgentConfig`): identity text, system prompt, allowed
tool names, and the retrieval/memory flags. -/
structure AgentConfig where
  name : String
  identity : String
  systemPrompt : String
  tools : List String
  enableRAG : Bool
  enableMemory : Bool

/-- Outcome of one iteration body of the reasoning loop: fall through to the
next iteration, break with a final response, or let an exception propagate
(only the un-guarded `delegate` dispatch can do so). -/
inductive StepOutcome where
  | next
  | finished (finalResponse : String)
  | raised (e : String)

/-- Replace an object field in place or append it (the order-preserving
overwrite a JavaScript object literal performs). -/
def setField : List (String × Json) → String → Json → List (String × Json)
  | [], k, v => [(k, v)]
  | (k', v') :: rest, k, v =>
      if k' = k then (k, v) :: rest else (k', v') :: setField rest k v

/-- JavaScript object-literal spread `{...toolInput, from: name}` used by the
`delegate` branch: for an object, set the `from` field (in place when already
present); non-object inputs contribute no enumerable properties beyond the
degenerate cases, leaving just the `from` field. -/
def spreadFrom (j : Json) (name : String) : Json :=
  match j with
  | Json.obj fields => Json.obj (setField fields "from" (Json.str name))
  | _ => Json.obj [("from", Json.str name)]

/-- Body of one iteration of `reason`'s while loop (lines 59–92 of
`base-agent.ts`): parse aside, branch on the step's action.  `tool_call`
requires a truthy tool name and a present input, converts dispatcher errors
into `Tool execution failed` observations, and continues; `delegate`
dispatches `sendAgentMessage` without a `try/catch`, so a dispatch error is
raised; `respond` and `wait` break with a final response.  The third
component records the dispatcher invocations made by the iteration. -/
def runStep (server : MCPServer) (stringify : Json → String) (agentName : String)
    (step : ReasoningStep) (llmResponse : String) :
    ReasoningStep × StepOutcome × List (String × Json) :=
  match step.action with
  | ActionType.respond =>
      (step, StepOutcome.finished (jsOr step.observation llmResponse), [])
  | ActionType.tool_call =>
      match step.tool, step.toolInput with
      | some t, some j =>
          if t.isEmpty then (step, StepOutcome.next, [])
          else
            match (server.executeTool t j).2 with
            | Except.ok r =>
                ({ step with observation := some (stringify r) }, StepOutcome.next, [(t, j)])
            | Except.error e =>
                ({ step with observation := some ("Tool execution failed: " ++ e) },
                 StepOutcome.next, [(t, j)])
      | _, _ => (step, StepOutcome.next, [])
  | ActionType.delegate =>
      match step.toolInput with
      | some j =>
          let params := spreadFrom j agentName
          match (server.executeTool "sendAgentMessage" params).2 with
          | Except.ok _ =>
              ({ step with observation := some "Message sent to another agent" },
               StepOutcome.next, [("sendAgentMessage", params)])
          | Except.error e => (step, StepOutcome.raised e, [("sendAgentMessage", params)])
      | none => (step, StepOutcome.next, [])
  | ActionType.wait =>
      (step, StepOutcome.finished (jsOr step.observation "I need more information to proceed."), [])

/-- Result of the reasoning while-loop: the final response text, the value of
the `iteration` counter on exit, and the accumulated `reasoningSteps`. -/
structure LoopResult where
  finalResponse : String
  iterations : Nat
  steps : List ReasoningStep

/-- The fixed ceiling response (line 96 of `base-agent.ts`). -/
def reasoningLimitText : String :=
  "I've reached my reasoning limit. Let me summarize what I found."

/-- Model of `reason`'s while loop, recursing on the number of remaining
iterations (`maxIterations - iteration`).  Each pass calls the completion
function on the steps taken so far (its errors propagate), parses the
response, pushes the step (observation updates included, as the pushed JS
object is mutated in place), and branches via `runStep`; when the ceiling is
reached the final response is forced to the fixed limit text. -/
def reasonLoop (complete : List ReasoningStep → Except String String)
    (jsonParse : String → Option Json) (stringify : Json → String)
    (server : MCPServer) (agentName : String) :
    Nat → Nat → String → List ReasoningStep → Except String LoopResult
  | 0, iteration, finalResponse, steps =>
      Except.ok { finalResponse := finalResponse, iterations := iteration, steps := steps }
  | remaining + 1, iteration, finalResponse, steps =>
      match complete steps with
      | Except.error e => Except.error e
      | Except.ok llmResponse =>
          let step := parseReasoningStep jsonParse llmResponse
          match runStep server stringify agentName step llmResponse with
          | (step', StepOutcome.finished r, _) =>
              Except.ok { finalResponse := r, iterations := iteration + 1,
                          steps := steps ++ [step'] }
          | (_, StepOutcome.raised e, _) => Except.error e
          | (step', StepOutcome.next, _) =>
              reasonLoop complete jsonParse stringify server agentName remaining
                (iteration + 1)
                (if remaining = 0 then reasoningLimitText else finalResponse)
                (steps ++ [step'])

/-- Parameters of the post-loop `ragEngine.storeMemory` call. -/
structure StoreMemoryParams where
  content : String
  source : String
  agentName : String
  iterations : Nat

/-- Model of `RAGEngine.storeMemory`'s error behaviour: the `try/catch` logs
and rethrows, so the underlying pipeline's outcome passes through
unchanged. -/
def ragStoreMemory (underlying : Except String String) : Except String String :=
  match underlying with
  | Except.ok id => Except.ok id
  | Except.error e => Except.error e

/-- Model of `AuditService.logAudit`'s error behaviour: the `try/catch`
swallows any failure of the underlying audit write ("Don't throw - audit
failures shouldn't break the main flow"), so the call always resolves. -/
def auditLogAudit (underlying : Except String Unit) : Except String Unit :=
  match underlying with
  | Except.ok _ => Except.ok ()
  | Except.error _ => Except.ok ()

/-- External collaborators of one `reason` call.  `buildContext` is the
retrieval collaborator (its `contextString` on success), `complete` the
abstract LLM completion (prompt assembly is absorbed into it, the response
being its only observable), `jsonParse`/`stringify` the JSON builtins,
`storeMemory` the embedding/database pipeline underlying
`RAGEngine.storeMemory`, and `auditCreate` the database write underlying
`AuditService.logAudit`. -/
structure ReasonEnv where
  buildContext : Except String String
  complete : List ReasoningStep → Except String String
  jsonParse : String → Option Json
  stringify : Json → String
  storeMemory : StoreMemoryParams → Except String String
  auditCreate : Except String Unit

/-- The memory record `reason` stores after the loop. -/
def memoryParamsFor (cfg : AgentConfig) (input : String) (res : LoopResult) :
    StoreMemoryParams :=
  { content := cfg.name ++ " processed: " ++ input ++ " -> " ++ res.finalResponse,
    source := "agent_message", agentName := cfg.name, iterations := res.iterations }

/-- Model of `BaseAgent.reason`: retrieve context when enabled (failure
propagates), run the bounded reasoning loop, then store the interaction in
memory when enabled (`ragEngine.storeMemory` rethrows, so a failure
propagates through the outer `catch`, which only logs and rethrows) and write
the audit record (`AuditService.logAudit` never throws), finally returning
the loop's response text. -/
def reason (cfg : AgentConfig) (server : MCPServer) (env : ReasonEnv) (input : String) :
    Except String String :=
  match (if cfg.enableRAG then env.buildContext.map some else Except.ok none) with
  | Except.error e => Except.error e
  | Except.ok _ragContext =>
    match reasonLoop env.complete env.jsonParse env.stringify server cfg.name 5 0 "" [] with
    | Except.error e => Except.error e
    | Except.ok res =>
      match (if cfg.enableMemory
              then (ragStoreMemory (env.storeMemory (memoryParamsFor cfg input res))).map
                (fun _ => ())
              else Except.ok ()) with
      | Except.error e => Except.error e
      | Except.ok _ =>
        match auditLogAudit env.auditCreate with
        | Except.error e => Except.error e
        | Except.ok _ => Except.ok res.finalResponse

/-! ### Agent message queue (`createSendAgentMessageTool`) and poller
(`AgentManager.processPendingMessages`) -/

/-- Message status life-cycle. -/
inductive Status where
  | pending
  | processing
  | processed
  | failed
  deriving DecidableEq, Repr

/-- Persisted inter-agent message (the `agentMessage` Prisma record). -/
structure AgentMessage where
  id : Nat
  fromAgent : String
  toAgent : String
  intent : String
  payload : Json
  status : Status
  createdAt : Nat
  processedAt : Option Nat := none
  result : Option Json := none
  errorMessage : Option String := none

/-- Parameters of the `sendAgentMessage` tool handler; `sendTo` and
`sendFrom` model the `to` and optional `from` parameters (both are reserved
words in Lean). -/
structure SendParams where
  sendTo : String
  intent : String
  payload : Json
  sendFrom : Option String

/-- The handler's return value `{success: true, messageId}`. -/
structure SendResult where
  success : Bool
  messageId : Nat

/-- Message table together with the id the database would assign next. -/
structure QueueDB where
  messages : List AgentMessage
  nextId : Nat

/-- Model of the `sendAgentMessage` tool handler (`tool-registry.ts`): create
a record with `fromAgent` defaulted through `params.from || 'unknown'`,
status `pending`, and return success with the new id.  The database create is
the external persistence collaborator, modelled as an always-succeeding
append stamped with `now`. -/
def sendAgentMessageHandler (db : QueueDB) (now : Nat) (p : SendParams) :
    QueueDB × SendResult :=
  let msg : AgentMessage :=
    { id := db.nextId, fromAgent := jsOr p.sendFrom "unknown", toAgent := p.sendTo,
      intent := p.intent, payload := p.payload, status := Status.pending,
      createdAt := now }
  ({ messages := db.messages ++ [msg], nextId := db.nextId + 1 },
   { success := true, messageId := db.nextId })

/-- The message triple handed to the target agent
(`agent.processAgentMessage({from, intent, payload})`). -/
structure AgentMsgIn where
  msgFrom : String
  intent : String
  payload : Json

/-- Environment of one poller tick: the registered agents (name to the
abstract outcome of `processAgentMessage`, which drives that agent's `reason`)
and the clock used for `processedAt`. -/
structure PollEnv where
  agents : String → Option (AgentMsgIn → Except String String)
  now : Nat

/-- Prisma `update where id` on the message table: rewrite every record with
the given id (ids are unique in any well-formed table). -/
def dbUpdate (db : List AgentMessage) (i : Nat) (f : AgentMessage → AgentMessage) :
    List AgentMessage :=
  db.map (fun m => if m.id = i then f m else m)

/-- Lookup of the first record with the given id. -/
def getMsg : List AgentMessage → Nat → Option AgentMessage
  | [], _ => none
  | m :: rest, i => if m.id = i then some m else getMsg rest i

/-- Prisma `findMany({where: {status: pending}, orderBy: {createdAt: asc},
take: 10})`: the pending records, stably sorted by creation time, first
ten. -/
def selectPending (db : List AgentMessage) : List AgentMessage :=
  (((db.filter (fun m => decide (m.status = Status.pending))).insertionSort
      (fun a b => a.createdAt ≤ b.createdAt)).take 10)

/-- Terminal status one poller pass assigns to a message: `failed` for an
unknown target agent or a throwing `reason`, `processed` otherwise.  It
depends only on the message snapshot and the agent registry. -/
def terminalFor (env : PollEnv) (m : AgentMessage) : Status :=
  match env.agents m.toAgent with
  | none => Status.failed
  | some reasonFn =>
      match reasonFn { msgFrom := m.fromAgent, intent := m.intent, payload := m.payload } with
      | Except.ok _ => Status.processed
      | Except.error _ => Status.failed

/-- The record a selected message ends the tick as. -/
def finalRecordFor (env : PollEnv) (m : AgentMessage) : AgentMessage :=
  match env.agents m.toAgent with
  | none =>
      { m with status := Status.failed,
               errorMessage := some ("Agent not found: " ++ m.toAgent) }
  | some reasonFn =>
      match reasonFn { msgFrom := m.fromAgent, intent := m.intent, payload := m.payload } with
      | Except.ok result =>
          { m with status := Status.processed, processedAt := some env.now,
                   result := some (Json.obj [("response", Json.str result)]) }
      | Except.error e =>
          { m with status := Status.failed, errorMessage := some e }

/-- Body of the poller's per-message loop (lines 104–161 of
`agent-manager.ts`): write `processing`, resolve the target agent — unknown
targets are written `failed` with an explanatory error and skipped — invoke
its `reason`, and write the terminal status (`processed` with result and
timestamp, or `failed` with the error message; the surrounding `try/catch`
converts a throwing `reason` into the `failed` write).  Returns the table,
the status writes performed, and the ids for which an agent was invoked. -/
def processOne (env : PollEnv) (db : List AgentMessage) (m : AgentMessage) :
    List AgentMessage × List (Nat × Status) × List Nat :=
  let db1 := dbUpdate db m.id (fun r => { r with status := Status.processing })
  match env.agents m.toAgent with
  | none =>
      (dbUpdate db1 m.id (fun r =>
          { r with status := Status.failed,
                   errorMessage := some ("Agent not found: " ++ m.toAgent) }),
       [(m.id, Status.processing), (m.id, Status.failed)], [])
  | some reasonFn =>
      match reasonFn { msgFrom := m.fromAgent, intent := m.intent, payload := m.payload } with
      | Except.ok result =>
          (dbUpdate db1 m.id (fun r =>
              { r with status := Status.processed, processedAt := some env.now,
                       result := some (Json.obj [("response", Json.str result)]) }),
           [(m.id, Status.processing), (m.id, Status.processed)], [m.id])
      | Except.error e =>
          (dbUpdate db1 m.id (fun r =>
              { r with status := Status.failed, errorMessage := some e }),
           [(m.id, Status.processing), (m.id, Status.failed)], [m.id])

/-- Sequential processing of a batch (the `for` loop of
`processPendingMessages`). -/
def processBatch (env : PollEnv) :
    List AgentMessage → List AgentMessage →
    List AgentMessage × List (Nat × Status) × List Nat
  | db, [] => (db, [], [])
  | db, m :: rest =>
      let one := processOne env db m
      let r := processBatch env one.1 rest
      (r.1, one.2.1 ++ r.2.1, one.2.2 ++ r.2.2)

/-- Model of one execution of `AgentManager.processPendingMessages`: select
up to ten pending messages oldest-first and process them sequentially. -/
def processPendingMessages (env : PollEnv) (db : List AgentMessage) :
    List AgentMessage × List (Nat × Status) × List Nat :=
  processBatch env db (selectPending db)

/-- Status writes a batch performs, message by message. -/
def writesFor (env : PollEnv) : List AgentMessage → List (Nat × Status)
  | [] => []
  | m :: rest =>
      (m.id, Status.processing) :: (m.id, terminalFor env m) :: writesFor env rest

/-- Ids of the batch messages for which an agent's `reason` is invoked. -/
def invokedFor (env : PollEnv) : List AgentMessage → List Nat
  | [] => []
  | m :: rest =>
      (if (env.agents m.toAgent).isSome then [m.id] else []) ++ invokedFor env rest

/-! ### Registry lemmas and claims C8, C10 -/

/-- Lookup after `Map.set`: the set name maps to the new tool, every other
name is untouched. -/
theorem findTool_mapSet (l : List MCPTool) (t : MCPTool) (n : String) :
    findTool (mapSet l t) n = if n = t.name then some t else findTool l n := by
  induction l with
  | nil =>
      rcases eq_or_ne t.name n with h | h
      · simp [mapSet, findTool, h]
      · simp [mapSet, findTool, h, Ne.symm h]
  | cons t' rest ih =>
      rcases eq_or_ne t'.name t.name with h1 | h1
      · rcases eq_or_ne t.name n with h2 | h2
        · simp [mapSet, findTool, h1, h2]
        · have h3 : t'.name ≠ n := fun hh => h2 (h1.symm.trans hh)
          simp [mapSet, findTool, h1, h2, Ne.symm h2, h3]
      · rcases eq_or_ne t'.name n with h2 | h2
        · have h3 : n ≠ t.name := fun hh => h1 (h2.trans hh)
          simp [mapSet, findTool, h1, h2, h3]
        · simp [mapSet, findTool, h1, h2, ih]

/-- C8: for two tools of the same name, registering the first and then the
second never fails, afterwards lookup of that name returns the second (last
registration wins), and every other name's entry is unchanged. -/
theorem claim_c8_register_last_wins (s : MCPServer) (t1 t2 : MCPTool)
    (h : t1.name = t2.name) :
    ((s.registerTool t1).registerTool t2).getTool t2.name = some t2 ∧
    (∀ n, n ≠ t1.name → ((s.registerTool t1).registerTool t2).getTool n = s.getTool n) := by
  constructor
  · simp [MCPServer.registerTool, MCPServer.getTool, findTool_mapSet]
  · intro n hn
    have hn2 : n ≠ t2.name := fun hh => hn (hh.trans h.symm)
    simp [MCPServer.registerTool, MCPServer.getTool, findTool_mapSet, hn, hn2]

/-- Closed instance of C8: overwriting registration observed on a concrete
two-tool example. -/
theorem claim_c8_register_last_wins_witness :
    (((MCPServer.mk []).registerTool
        { name := "x", description := "a", parameters := Json.null,
          handler := fun _ => Except.ok Json.null }).registerTool
        { name := "x", description := "b", parameters := Json.null,
          handler := fun _ => Except.ok Json.null }).getTool "x" =
      some { name := "x", description := "b", parameters := Json.null,
             handler := fun _ => Except.ok Json.null } ∧
    (((MCPServer.mk []).registerTool
        { name := "x", description := "a", parameters := Json.null,
          handler := fun _ => Except.ok Json.null }).registerTool
        { name := "x", description := "b", parameters := Json.null,
          handler := fun _ => Except.ok Json.null }).getTool "y" =
      (MCPServer.mk []).getTool "y" := by
  have h := claim_c8_register_last_wins (MCPServer.mk [])
    { name := "x", description := "a", parameters := Json.null,
      handler := fun _ => Except.ok Json.null }
    { name := "x", description := "b", parameters := Json.null,
      handler := fun _ => Except.ok Json.null } rfl
  exact ⟨h.1, h.2 "y" (by decide)⟩

/-- C10: the definitions lookup drops unregistered names silently (no entry,
no error) and produces exactly one `{name, description, parameters}` entry
for each registered requested name, in request order. -/
theorem claim_c10_tool_definitions (s : MCPServer) (xs ys : List String) (n : String) :
    (s.getTool n = none →
      s.getToolDefinitions (some (xs ++ n :: ys)) = s.getToolDefinitions (some (xs ++ ys))) ∧
    (∀ t, s.getTool n = some t →
      s.getToolDefinitions (some (xs ++ n :: ys)) =
        s.getToolDefinitions (some xs) ++
          mkToolDefinition t :: s.getToolDefinitions (some ys)) := by
  constructor
  · intro h
    simp [MCPServer.getToolDefinitions, List.filterMap_append, List.filterMap_cons, h]
  · intro t ht
    simp [MCPServer.getToolDefinitions, List.filterMap_append, List.filterMap_cons, ht]

/-- Closed instance of C10: a whitelist naming one registered and one
unregistered tool yields exactly the registered tool's definition. -/
theorem claim_c10_tool_definitions_witness :
    (MCPServer.mk [{ name := "x", description := "d", parameters := Json.null,
                     handler := fun _ => Except.ok Json.null }]).getToolDefinitions
        (some (["ghost"] ++ ["x"])) =
      [{ type := "function", name := "x", description := "d", parameters := Json.null }] := by
  have h := (claim_c10_tool_definitions
    (MCPServer.mk [{ name := "x", description := "d", parameters := Json.null,
                     handler := fun _ => Except.ok Json.null }]) [] ["x"] "ghost").1 rfl
  exact h.trans rfl

/-! ### Claim C9: enqueue with the `from` parameter absent -/

/-- C9: with `from` absent the `sendAgentMessage` handler does not fail, it
persists the message with `fromAgent` the literal `"unknown"`, the other
fields from the parameters and status `pending`, and returns success carrying
the new message's id. -/
theorem claim_c9_send_from_absent (db : QueueDB) (now : Nat) (p : SendParams)
    (h : p.sendFrom = none) :
    (sendAgentMessageHandler db now p).1.messages =
      db.messages ++
        [{ id := db.nextId, fromAgent := "unknown", toAgent := p.sendTo,
           intent := p.intent, payload := p.payload, status := Status.pending,
           createdAt := now }] ∧
    (sendAgentMessageHandler db now p).2.success = true ∧
    (sendAgentMessageHandler db now p).2.messageId = db.nextId := by
  refine ⟨?_, rfl, rfl⟩
  simp [sendAgentMessageHandler, h, jsOr]

/-- Closed instance of C9 on an empty table. -/
theorem claim_c9_send_from_absent_witness :
    (sendAgentMessageHandler (QueueDB.mk [] 0) 7
        { sendTo := "B", intent := "Ping", payload := Json.null, sendFrom := none }).1.messages =
      [{ id := 0, fromAgent := "unknown", toAgent := "B", intent := "Ping",
         payload := Json.null, status := Status.pending, createdAt := 7 }] ∧
    (sendAgentMessageHandler (QueueDB.mk [] 0) 7
        { sendTo := "B", intent := "Ping", payload := Json.null, sendFrom := none }).2.success = true := by
  have h := claim_c9_send_from_absent (QueueDB.mk [] 0) 7
    { sendTo := "B", intent := "Ping", payload := Json.null, sendFrom := none } rfl
  exact ⟨h.1.trans (by simp), h.2.1⟩

/-! ### Parsing lemmas and claim C7 -/

/-- Only a `tool_call` step ever carries a tool input: `parseReasoningStep`
assigns `toolInput` inside the `if (step.action === 'tool_call')` block
only. -/
theorem parse_toolInput_none_of_not_tool_call (jp : String → Option Json) (resp : String)
    (h : (parseReasoningStep jp resp).action ≠ ActionType.tool_call) :
    (parseReasoningStep jp resp).toolInput = none := by
  simp only [parseReasoningStep] at h ⊢
  rw [if_neg h]

/-- C7: parsing is total and defaults safely — with no extractable action
label the step's action is `respond`; a `tool_call` step whose labelled
`ToolInput` fails to parse as JSON falls back to the delegation-shaped
secondary extraction and, when that also fails, keeps `toolInput` undefined,
and such a step performs no dispatcher invocation in its iteration. -/
theorem claim_c7_parse_total_defaults (jp : String → Option Json) (resp : String)
    (server : MCPServer) (strf : Json → String) (agentName : String) :
    (matchLabel "Action:" false resp = none →
      (parseReasoningStep jp resp).action = ActionType.respond) ∧
    (∀ g, (parseReasoningStep jp resp).action = ActionType.tool_call →
      matchToolInput resp = some g →
      jp (trimString g) = none →
      (∀ g2, secondaryMatch resp = some g2 → jp g2 = none) →
      (parseReasoningStep jp resp).toolInput = none ∧
      (runStep server strf agentName (parseReasoningStep jp resp) resp).2.1 = StepOutcome.next ∧
      (runStep server strf agentName (parseReasoningStep jp resp) resp).2.2 = []) := by
  constructor
  · intro h
    simp only [parseReasoningStep]
    rw [h]
    rfl
  · intro g hact hti hjp hsec
    have htin : (parseReasoningStep jp resp).toolInput = none := by
      simp only [parseReasoningStep] at hact ⊢
      rw [if_pos hact, hti]
      simp only []
      rw [hjp]
      rcases hs : secondaryMatch resp with _ | g2
      · rfl
      · simp [hsec g2 hs]
    refine ⟨htin, ?_⟩
    rcases htool : (parseReasoningStep jp resp).tool with _ | t <;>
      simp [runStep, hact, htin, htool]

/-- Closed instance of C7: a label-free response parses to `respond`, and a
`tool_call` response whose input is unparseable JSON (under a parser that
rejects everything) ends with no `toolInput`. -/
theorem claim_c7_parse_total_defaults_witness :
    (parseReasoningStep (fun _ => none) "no recognizable content").action =
      ActionType.respond ∧
    (parseReasoningStep (fun _ => none)
        "Action: tool_call\nTool: x\nToolInput: \x7b\"to\":1,\"intent\":2,\"payload\":3\x7d").toolInput =
      none := by
  constructor
  · exact (claim_c7_parse_total_defaults (fun _ => none) "no recognizable content"
      (MCPServer.mk []) (fun _ => "") "A").1 rfl
  · exact ((claim_c7_parse_total_defaults (fun _ => none)
      "Action: tool_call\nTool: x\nToolInput: \x7b\"to\":1,\"intent\":2,\"payload\":3\x7d"
      (MCPServer.mk []) (fun _ => "") "A").2
      "\x7b\"to\":1,\"intent\":2,\"payload\":3\x7d" rfl rfl rfl (fun _ _ => rfl)).1

/-! ### Loop lemmas and claim C2 -/

/-- On a parsed step the loop body never raises: `tool_call` failures are
caught and become observations, and a `delegate` step has no `toolInput`
(it is only assigned for `tool_call`), so the un-guarded `sendAgentMessage`
dispatch is unreachable. -/
theorem runStep_parsed_no_raise (server : MCPServer) (strf : Json → String)
    (agentName : String) (jp : String → Option Json) (resp : String) (e : String) :
    (runStep server strf agentName (parseReasoningStep jp resp) resp).2.1 ≠
      StepOutcome.raised e := by
  rcases hact : (parseReasoningStep jp resp).action with _ | _ | _ | _
  · rcases htool : (parseReasoningStep jp resp).tool with _ | t <;>
      rcases htin : (parseReasoningStep jp resp).toolInput with _ | j <;>
      simp [runStep, hact, htool, htin]
    rcases ht0 : t.isEmpty <;>
      rcases h2 : (server.executeTool t j).2 <;> simp [ht0, h2]
  · simp [runStep, hact]
  · have htin := parse_toolInput_none_of_not_tool_call jp resp (by simp [hact])
    simp [runStep, hact, htin]
  · simp [runStep, hact]

/-- When every completion call succeeds, the loop terminates normally with a
result, whatever the tools do. -/
theorem reasonLoop_ok_of_complete_ok (complete : List ReasoningStep → Except String String)
    (jp : String → Option Json) (strf : Json → String) (server : MCPServer)
    (agentName : String) (hc : ∀ steps, ∃ r, complete steps = Except.ok r) :
    ∀ remaining iteration fr steps, ∃ out,
      reasonLoop complete jp strf server agentName remaining iteration fr steps =
        Except.ok out := by
  intro remaining
  induction remaining with
  | zero => intro it fr steps; exact ⟨_, rfl⟩
  | succ n ih =>
      intro it fr steps
      obtain ⟨r, hr⟩ := hc steps
      rcases hrs : runStep server strf agentName (parseReasoningStep jp r) r with
        ⟨step', oc, calls⟩
      cases oc with
      | finished s => exact ⟨_, by simp only [reasonLoop]; rw [hr]; simp only []; rw [hrs]⟩
      | raised e =>
          exact absurd (by rw [hrs] : (runStep server strf agentName
              (parseReasoningStep jp r) r).2.1 = StepOutcome.raised e)
            (runStep_parsed_no_raise server strf agentName jp r e)
      | next =>
          obtain ⟨out, hout⟩ :=
            ih (it + 1) (if n = 0 then reasoningLimitText else fr) (steps ++ [step'])
          refine ⟨out, ?_⟩
          simp only [reasonLoop]
          rw [hr]
          simp only []
          rw [hrs]
          exact hout

/-- The loop performs at most `remaining` further iterations. -/
theorem reasonLoop_iterations_le (complete : List ReasoningStep → Except String String)
    (jp : String → Option Json) (strf : Json → String) (server : MCPServer)
    (agentName : String) :
    ∀ remaining iteration fr steps out,
      reasonLoop complete jp strf server agentName remaining iteration fr steps =
        Except.ok out →
      out.iterations ≤ iteration + remaining := by
  intro remaining
  induction remaining with
  | zero =>
      intro it fr steps out h
      simp only [reasonLoop, Except.ok.injEq] at h
      subst h
      simp
  | succ n ih =>
      intro it fr steps out h
      simp only [reasonLoop] at h
      rcases hr : complete steps with e | r <;> rw [hr] at h
      · exact absurd h (by simp)
      · simp only [] at h
        rcases hrs : runStep server strf agentName (parseReasoningStep jp r) r with
          ⟨step', oc, calls⟩
        rw [hrs] at h
        cases oc with
        | finished s =>
            simp only [Except.ok.injEq] at h
            subst h
            exact (by omega : it + 1 ≤ it + (n + 1))
        | raised e => exact absurd h (by simp)
        | next =>
            have := ih (it + 1) (if n = 0 then reasoningLimitText else fr)
              (steps ++ [step']) out h
            omega

/-- The loop only appends to the running step list. -/
theorem reasonLoop_steps_grow (complete : List ReasoningStep → Except String String)
    (jp : String → Option Json) (strf : Json → String) (server : MCPServer)
    (agentName : String) :
    ∀ remaining iteration fr steps out,
      reasonLoop complete jp strf server agentName remaining iteration fr steps =
        Except.ok out →
      ∃ rest, out.steps = steps ++ rest := by
  intro remaining
  induction remaining with
  | zero =>
      intro it fr steps out h
      simp only [reasonLoop, Except.ok.injEq] at h
      subst h
      exact ⟨[], by simp⟩
  | succ n ih =>
      intro it fr steps out h
      simp only [reasonLoop] at h
      rcases hr : complete steps with e | r <;> rw [hr] at h
      · exact absurd h (by simp)
      · simp only [] at h
        rcases hrs : runStep server strf agentName (parseReasoningStep jp r) r with
          ⟨step', oc, calls⟩
        rw [hrs] at h
        cases oc with
        | finished s =>
            simp only [Except.ok.injEq] at h
            subst h
            exact ⟨[step'], rfl⟩
        | raised e => exact absurd h (by simp)
        | next =>
            obtain ⟨rest, hrest⟩ := ih (it + 1) (if n = 0 then reasoningLimitText else fr)
              (steps ++ [step']) out h
            exact ⟨step' :: rest, by simp [hrest]⟩

/-- C2 (amended): parse failures and `tool_call` handler failures never make
`reason` throw (a `delegate` step carries no `toolInput`, so it performs no
dispatch at all); when context retrieval, every completion call and the
post-loop memory write succeed, `reason` returns normally, whatever the tool
handlers do. -/
theorem claim_c2_no_throw_for_tool_failures (cfg : AgentConfig) (server : MCPServer)
    (env : ReasonEnv) (input : String)
    (hctx : ∃ c, env.buildContext = Except.ok c)
    (hcomp : ∀ steps, ∃ r, env.complete steps = Except.ok r)
    (hmem : ∀ p, ∃ i, env.storeMemory p = Except.ok i) :
    (∀ resp, (parseReasoningStep env.jsonParse resp).action = ActionType.delegate →
      (parseReasoningStep env.jsonParse resp).toolInput = none ∧
      (runStep server env.stringify cfg.name (parseReasoningStep env.jsonParse resp)
        resp).2.2 = []) ∧
    (∃ s, reason cfg server env input = Except.ok s) := by
  constructor
  · intro resp hdel
    have htin := parse_toolInput_none_of_not_tool_call env.jsonParse resp (by simp [hdel])
    exact ⟨htin, by simp [runStep, hdel, htin]⟩
  · obtain ⟨out, hloop⟩ := reasonLoop_ok_of_complete_ok env.complete env.jsonParse
      env.stringify server cfg.name hcomp 5 0 "" []
    obtain ⟨c, hc⟩ := hctx
    obtain ⟨i, hi⟩ := hmem (memoryParamsFor cfg input out)
    refine ⟨out.finalResponse, ?_⟩
    unfold reason
    rcases hA : env.auditCreate with e | u <;>
      cases hR : cfg.enableRAG <;> cases hM : cfg.enableMemory <;>
        simp [hc, hloop, hi, ragStoreMemory, auditLogAudit, hA, Except.map]

/-- Closed refutation of C2 as stated: with context retrieval and every
completion call succeeding, `reason` still throws — the post-loop memory
write's failure propagates. -/
theorem claim_c2_counterexample :
    reason { name := "A", identity := "", systemPrompt := "", tools := [],
             enableRAG := true, enableMemory := true } (MCPServer.mk [])
      { buildContext := Except.ok "ctx",
        complete := fun _ => Except.ok "Action: respond\nObservation: Fine",
        jsonParse := fun _ => none, stringify := fun _ => "",
        storeMemory := fun _ => Except.error "vector store offline",
        auditCreate := Except.ok () } "query" =
      Except.error "vector store offline" := rfl

/-- Closed instance of the amended C2: with a failing tool handler in every
iteration, `reason` still returns normally. -/
theorem claim_c2_no_throw_for_tool_failures_witness :
    ∃ s, reason { name := "A", identity := "", systemPrompt := "", tools := [],
                  enableRAG := false, enableMemory := false }
      (MCPServer.mk [{ name := "boom", description := "", parameters := Json.null,
                       handler := fun _ => Except.error "boom" }])
      { buildContext := Except.ok "",
        complete := fun _ =>
          Except.ok "Action: tool_call\nTool: boom\nToolInput: \x7b\"a\":1\x7d",
        jsonParse := fun s => if s = "\x7b\"a\":1\x7d" then some Json.null else none,
        stringify := fun _ => "", storeMemory := fun _ => Except.ok "m",
        auditCreate := Except.ok () } "x" = Except.ok s :=
  (claim_c2_no_throw_for_tool_failures _ _ _ "x" ⟨"", rfl⟩
    (fun _ => ⟨"Action: tool_call\nTool: boom\nToolInput: \x7b\"a\":1\x7d", rfl⟩)
    (fun _ => ⟨"m", rfl⟩)).2

/-! ### Claim C3: iteration ceiling -/

/-- Scenario E fixed point: when every completion call returns the same
`tool_call` response for a registered tool whose handler succeeds, each
iteration falls through and the loop exhausts its budget, ending with the
fixed limit text. -/
theorem reasonLoop_all_tool_call (complete : List ReasoningStep → Except String String)
    (jp : String → Option Json) (strf : Json → String) (server : MCPServer)
    (agentName resp t : String) (j : Json) (tl : MCPTool) (r : Json)
    (hc : ∀ steps, complete steps = Except.ok resp)
    (ha : (parseReasoningStep jp resp).action = ActionType.tool_call)
    (ht : (parseReasoningStep jp resp).tool = some t)
    (hne : t.isEmpty = false)
    (hj : (parseReasoningStep jp resp).toolInput = some j)
    (htl : server.getTool t = some tl)
    (hh : tl.handler j = Except.ok r) :
    ∀ n iteration fr steps, ∃ out,
      reasonLoop complete jp strf server agentName (n + 1) iteration fr steps =
        Except.ok out ∧
      out.finalResponse = reasoningLimitText ∧ out.iterations = iteration + (n + 1) := by
  have hexec : (server.executeTool t j).2 = Except.ok r := by
    simp [MCPServer.executeTool, htl, hh]
  have hrs : runStep server strf agentName (parseReasoningStep jp resp) resp =
      ({ parseReasoningStep jp resp with observation := some (strf r) },
       StepOutcome.next, [(t, j)]) := by
    simp [runStep, ha, ht, hj, hne, hexec]
  have hunfold : ∀ k it2 fr2 steps2,
      reasonLoop complete jp strf server agentName (k + 1) it2 fr2 steps2 =
        reasonLoop complete jp strf server agentName k (it2 + 1)
          (if k = 0 then reasoningLimitText else fr2)
          (steps2 ++ [{ parseReasoningStep jp resp with observation := some (strf r) }]) := by
    intro k it2 fr2 steps2
    conv_lhs => simp only [reasonLoop]
    rw [hc steps2]
    simp only []
    rw [hrs]
  intro n
  induction n with
  | zero =>
      intro it fr steps
      refine ⟨{ finalResponse := reasoningLimitText, iterations := it + 1,
                steps := steps ++
                  [{ parseReasoningStep jp resp with observation := some (strf r) }] },
              ?_, rfl, rfl⟩
      rw [hunfold 0 it fr steps]
      rfl
  | succ m ih =>
      intro it fr steps
      obtain ⟨out, hout, hfr, hit⟩ := ih (it + 1) fr
        (steps ++ [{ parseReasoningStep jp resp with observation := some (strf r) }])
      refine ⟨out, ?_, hfr, by omega⟩
      rw [hunfold (m + 1) it fr steps]
      simpa using hout

/-- C3 (amended): the reasoning loop performs at most five iterations; under
Scenario E — every completion response the same `tool_call` for a registered
tool with a succeeding handler, so `respond` is never reached — it exits
after exactly five iterations and `reason` returns the fixed
reasoning-limit text.  (The returned text is not non-empty in general: an
empty `respond` step returns the empty string, see the counterexample.) -/
theorem claim_c3_iteration_ceiling (cfg : AgentConfig) (server : MCPServer)
    (env : ReasonEnv) (input resp t : String) (j : Json) (tl : MCPTool) (r : Json)
    (hctx : ∃ c, env.buildContext = Except.ok c)
    (hmem : ∀ p, ∃ i, env.storeMemory p = Except.ok i)
    (hc : ∀ steps, env.complete steps = Except.ok resp)
    (ha : (parseReasoningStep env.jsonParse resp).action = ActionType.tool_call)
    (ht : (parseReasoningStep env.jsonParse resp).tool = some t)
    (hne : t.isEmpty = false)
    (hj : (parseReasoningStep env.jsonParse resp).toolInput = some j)
    (htl : server.getTool t = some tl)
    (hh : tl.handler j = Except.ok r) :
    (∀ (complete2 : List ReasoningStep → Except String String) jp2 strf2 server2 nm2 out,
      reasonLoop complete2 jp2 strf2 server2 nm2 5 0 "" [] = Except.ok out →
      out.iterations ≤ 5) ∧
    (∃ out, reasonLoop env.complete env.jsonParse env.stringify server cfg.name 5 0 "" [] =
        Except.ok out ∧ out.iterations = 5 ∧ out.finalResponse = reasoningLimitText) ∧
    reason cfg server env input = Except.ok reasoningLimitText := by
  obtain ⟨out, hout, hfr, hit⟩ := reasonLoop_all_tool_call env.complete env.jsonParse
    env.stringify server cfg.name resp t j tl r hc ha ht hne hj htl hh 4 0 "" []
  obtain ⟨c, hcx⟩ := hctx
  obtain ⟨i, hi⟩ := hmem (memoryParamsFor cfg input out)
  refine ⟨?_, ⟨out, hout, by omega, hfr⟩, ?_⟩
  · intro complete2 jp2 strf2 server2 nm2 out2 h2
    exact reasonLoop_iterations_le complete2 jp2 strf2 server2 nm2 5 0 "" [] out2 h2
  · unfold reason
    rcases hA : env.auditCreate with e | u <;>
      cases hR : cfg.enableRAG <;> cases hM : cfg.enableMemory <;>
        simp [hcx, hout, hi, hfr, ragStoreMemory, auditLogAudit, hA, Except.map]

/-- Closed refutation of C3's non-empty-text clause: an empty completion
response parses to a `respond` step with no observation, and `reason`
returns the empty string. -/
theorem claim_c3_counterexample :
    reason { name := "A", identity := "", systemPrompt := "", tools := [],
             enableRAG := false, enableMemory := false } (MCPServer.mk [])
      { buildContext := Except.ok "", complete := fun _ => Except.ok "",
        jsonParse := fun _ => none, stringify := fun _ => "",
        storeMemory := fun _ => Except.ok "m", auditCreate := Except.ok () } "hi" =
      Except.ok "" ∧ ("" : String).isEmpty = true :=
  ⟨rfl, rfl⟩

/-- Closed instance of Scenario E: a constant `tool_call` completion against
a registered no-op tool makes `reason` return the fixed limit text. -/
theorem claim_c3_iteration_ceiling_witness :
    reason { name := "A", identity := "", systemPrompt := "", tools := [],
             enableRAG := false, enableMemory := false }
      (MCPServer.mk [{ name := "noop", description := "", parameters := Json.null,
                       handler := fun _ => Except.ok Json.null }])
      { buildContext := Except.ok "",
        complete := fun _ =>
          Except.ok "Thought: t\nAction: tool_call\nTool: noop\nToolInput: \x7b\"a\":1\x7d",
        jsonParse := fun s => if s = "\x7b\"a\":1\x7d" then some (Json.obj [("a", Json.num 1)])
          else none,
        stringify := fun _ => "r", storeMemory := fun _ => Except.ok "m",
        auditCreate := Except.ok () } "go" =
      Except.ok reasoningLimitText :=
  (claim_c3_iteration_ceiling
    { name := "A", identity := "", systemPrompt := "", tools := [],
      enableRAG := false, enableMemory := false }
    (MCPServer.mk [{ name := "noop", description := "", parameters := Json.null,
                     handler := fun _ => Except.ok Json.null }])
    { buildContext := Except.ok "",
      complete := fun _ =>
        Except.ok "Thought: t\nAction: tool_call\nTool: noop\nToolInput: \x7b\"a\":1\x7d",
      jsonParse := fun s => if s = "\x7b\"a\":1\x7d" then some (Json.obj [("a", Json.num 1)])
        else none,
      stringify := fun _ => "r", storeMemory := fun _ => Except.ok "m",
      auditCreate := Except.ok () } "go"
    "Thought: t\nAction: tool_call\nTool: noop\nToolInput: \x7b\"a\":1\x7d" "noop"
    (Json.obj [("a", Json.num 1)])
    { name := "noop", description := "", parameters := Json.null,
      handler := fun _ => Except.ok Json.null } Json.null
    ⟨"", rfl⟩ (fun _ => ⟨"m", rfl⟩) (fun _ => rfl) rfl rfl rfl rfl rfl rfl).2.2

/-! ### Claim C1: memory and audit write failure behaviour -/

/-- C1 (amended): an audit-sink failure is swallowed inside
`AuditService.logAudit` and never changes what `reason` returns; but a
memory-store failure propagates — `RAGEngine.storeMemory` rethrows and
`reason`'s outer catch rethrows — so `reason` throws instead of returning
the loop's response. -/
theorem claim_c1_observability_writes (cfg : AgentConfig) (server : MCPServer)
    (env : ReasonEnv) (input : String) :
    (∀ e, reason cfg server { env with auditCreate := Except.error e } input =
        reason cfg server { env with auditCreate := Except.ok () } input) ∧
    (∀ res e, cfg.enableMemory = true →
      reasonLoop env.complete env.jsonParse env.stringify server cfg.name 5 0 "" [] =
        Except.ok res →
      env.storeMemory (memoryParamsFor cfg input res) = Except.error e →
      (cfg.enableRAG = true → ∃ c, env.buildContext = Except.ok c) →
      reason cfg server env input = Except.error e) := by
  constructor
  · intro e
    rfl
  · intro res e hM hloop hsm hctx
    unfold reason
    cases hR : cfg.enableRAG
    · simp [hR, hloop, hM, hsm, ragStoreMemory, Except.map]
    · obtain ⟨c, hc⟩ := hctx hR
      simp [hR, hc, hloop, hM, hsm, ragStoreMemory, Except.map]

/-- Closed refutation of C1 as stated: with only the memory store failing,
`reason` throws rather than returning the response it would otherwise
return. -/
theorem claim_c1_counterexample :
    reason { name := "A", identity := "", systemPrompt := "", tools := [],
             enableRAG := true, enableMemory := true } (MCPServer.mk [])
      { buildContext := Except.ok "ctx",
        complete := fun _ => Except.ok "Action: respond\nObservation: Stored",
        jsonParse := fun _ => none, stringify := fun _ => "",
        storeMemory := fun _ => Except.error "db down",
        auditCreate := Except.ok () } "hi" =
      Except.error "db down" ∧
    reason { name := "A", identity := "", systemPrompt := "", tools := [],
             enableRAG := true, enableMemory := true } (MCPServer.mk [])
      { buildContext := Except.ok "ctx",
        complete := fun _ => Except.ok "Action: respond\nObservation: Stored",
        jsonParse := fun _ => none, stringify := fun _ => "",
        storeMemory := fun _ => Except.ok "m",
        auditCreate := Except.ok () } "hi" =
      Except.ok "Stored" :=
  ⟨rfl, rfl⟩

/-- Closed instance of the amended C1: the memory-store failure propagates
out of a concrete `reason` call. -/
theorem claim_c1_observability_writes_witness :
    reason { name := "A", identity := "", systemPrompt := "", tools := [],
             enableRAG := true, enableMemory := true } (MCPServer.mk [])
      { buildContext := Except.ok "ctx",
        complete := fun _ => Except.ok "Action: respond\nObservation: Kept",
        jsonParse := fun _ => none, stringify := fun _ => "",
        storeMemory := fun _ => Except.error "pipeline down",
        auditCreate := Except.ok () } "input" =
      Except.error "pipeline down" :=
  (claim_c1_observability_writes _ (MCPServer.mk []) _ "input").2
    { finalResponse := "Kept", iterations := 1,
      steps := [{ thought := "Analyzing the situation", action := ActionType.respond,
                  tool := none, toolInput := none, observation := some "Kept" }] }
    "pipeline down" rfl rfl rfl (fun _ => ⟨"ctx", rfl⟩)

/-! ### Substring lemmas and claim C6 -/

/-- A prefix of `s` is also a prefix of `s ++ t`. -/
theorem listStarts_append (pat s t : List Char) (h : listStarts pat s = true) :
    listStarts pat (s ++ t) = true := by
  induction pat generalizing s with
  | nil => rfl
  | cons p ps ih =>
      cases s with
      | nil => exact absurd h (by simp [listStarts])
      | cons c cs =>
          simp only [listStarts, List.cons_append] at h ⊢
          rcases eq_or_ne p c with he | he
          · rw [if_pos he] at h ⊢
            exact ih cs h
          · rw [if_neg he] at h
            exact absurd h (by simp)

/-- An occurrence in `s` is an occurrence in `s ++ t`. -/
theorem containsSub_append_left (pat s t : List Char) (h : containsSub pat s = true) :
    containsSub pat (s ++ t) = true := by
  induction s with
  | nil =>
      have hp : listStarts pat [] = true := h
      cases pat with
      | nil =>
          cases t with
          | nil => rfl
          | cons c cs => simp [containsSub, listStarts]
      | cons p ps => exact absurd hp (by simp [listStarts])
  | cons c cs ih =>
      simp only [containsSub, Bool.or_eq_true] at h
      rcases h with h | h
      · simp only [List.cons_append, containsSub, Bool.or_eq_true]
        exact Or.inl (listStarts_append pat (c :: cs) t h)
      · simp only [List.cons_append, containsSub, Bool.or_eq_true]
        exact Or.inr (ih h)

/-- C6: a `tool_call` step naming an unregistered tool makes the dispatcher
fail with a `Tool not found` error while leaving the registry untouched; the
loop converts this into a `Tool execution failed … not found` observation on
the recorded step, continues, and `reason` returns normally rather than
throwing. -/
theorem claim_c6_unknown_tool_becomes_observation (cfg : AgentConfig) (server : MCPServer)
    (env : ReasonEnv) (input resp t : String) (j : Json)
    (hc0 : env.complete [] = Except.ok resp)
    (hcomp : ∀ steps, ∃ r, env.complete steps = Except.ok r)
    (hctx : ∃ c, env.buildContext = Except.ok c)
    (hmem : ∀ p, ∃ i, env.storeMemory p = Except.ok i)
    (ha : (parseReasoningStep env.jsonParse resp).action = ActionType.tool_call)
    (ht : (parseReasoningStep env.jsonParse resp).tool = some t)
    (hne : t.isEmpty = false)
    (hj : (parseReasoningStep env.jsonParse resp).toolInput = some j)
    (htl : server.getTool t = none) :
    server.executeTool t j = (server, Except.error ("Tool not found: " ++ t)) ∧
    runStep server env.stringify cfg.name (parseReasoningStep env.jsonParse resp) resp =
      ({ parseReasoningStep env.jsonParse resp with
         observation := some ("Tool execution failed: Tool not found: " ++ t) },
       StepOutcome.next, [(t, j)]) ∧
    containsSub "not found".toList
      ("Tool execution failed: Tool not found: " ++ t).toList = true ∧
    (∃ out rest,
      reasonLoop env.complete env.jsonParse env.stringify server cfg.name 5 0 "" [] =
        Except.ok out ∧
      out.steps = { parseReasoningStep env.jsonParse resp with
                    observation := some ("Tool execution failed: Tool not found: " ++ t) }
        :: rest ∧
      reason cfg server env input = Except.ok out.finalResponse) := by
  have hexec : server.executeTool t j = (server, Except.error ("Tool not found: " ++ t)) := by
    simp [MCPServer.executeTool, htl]
  have hrs : runStep server env.stringify cfg.name (parseReasoningStep env.jsonParse resp)
      resp =
      ({ parseReasoningStep env.jsonParse resp with
         observation := some ("Tool execution failed: Tool not found: " ++ t) },
       StepOutcome.next, [(t, j)]) := by
    simp only [runStep, ha, ht, hj, hne, hexec]
    rw [← String.append_assoc]
    rfl
  have hsub : containsSub "not found".toList
      ("Tool execution failed: Tool not found: " ++ t).toList = true := by
    have hl : ("Tool execution failed: Tool not found: " ++ t).toList =
        "Tool execution failed: Tool not found: ".toList ++ t.toList := by
      simp [String.toList]
    rw [hl]
    exact containsSub_append_left _ _ _ (by decide)
  refine ⟨hexec, hrs, hsub, ?_⟩
  obtain ⟨out, hout⟩ := reasonLoop_ok_of_complete_ok env.complete env.jsonParse
    env.stringify server cfg.name hcomp 4 1 ""
    [{ parseReasoningStep env.jsonParse resp with
       observation := some ("Tool execution failed: Tool not found: " ++ t) }]
  have hloop : reasonLoop env.complete env.jsonParse env.stringify server cfg.name
      5 0 "" [] = Except.ok out := by
    conv_lhs => simp only [reasonLoop]
    rw [hc0]
    simp only []
    rw [hrs]
    simpa using hout
  obtain ⟨rest, hrest⟩ := reasonLoop_steps_grow env.complete env.jsonParse env.stringify
    server cfg.name 4 1 ""
    [{ parseReasoningStep env.jsonParse resp with
       observation := some ("Tool execution failed: Tool not found: " ++ t) }] out hout
  refine ⟨out, rest, hloop, by simpa using hrest, ?_⟩
  obtain ⟨c, hcx⟩ := hctx
  obtain ⟨i, hi⟩ := hmem (memoryParamsFor cfg input out)
  unfold reason
  rcases hA : env.auditCreate with e | u <;>
    cases hR : cfg.enableRAG <;> cases hM : cfg.enableMemory <;>
      simp [hcx, hloop, hi, ragStoreMemory, auditLogAudit, hA, Except.map]

/-- Closed instance of C6: a `tool_call` naming the unregistered tool
`ghost` against an empty registry. -/
theorem claim_c6_unknown_tool_becomes_observation_witness :
    (MCPServer.mk []).executeTool "ghost" (Json.obj [("a", Json.num 1)]) =
      (MCPServer.mk [], Except.error "Tool not found: ghost") ∧
    containsSub "not found".toList
      ("Tool execution failed: Tool not found: " ++ "ghost").toList = true := by
  have h := claim_c6_unknown_tool_becomes_observation
    { name := "A", identity := "", systemPrompt := "", tools := [],
      enableRAG := false, enableMemory := false }
    (MCPServer.mk [])
    { buildContext := Except.ok "",
      complete := fun steps =>
        Except.ok (if steps.isEmpty then
          "Action: tool_call\nTool: ghost\nToolInput: \x7b\"a\":1\x7d"
        else "Action: respond\nObservation: done"),
      jsonParse := fun s => if s = "\x7b\"a\":1\x7d" then some (Json.obj [("a", Json.num 1)])
        else none,
      stringify := fun _ => "", storeMemory := fun _ => Except.ok "m",
      auditCreate := Except.ok () } "x"
    "Action: tool_call\nTool: ghost\nToolInput: \x7b\"a\":1\x7d" "ghost"
    (Json.obj [("a", Json.num 1)])
    rfl (fun steps => ⟨_, rfl⟩) ⟨"", rfl⟩ (fun _ => ⟨"m", rfl⟩) rfl rfl rfl rfl rfl
  exact ⟨h.1, h.2.2.1⟩

/-! ### Queue table lemmas -/

/-- Lookup of a different id is unaffected by an id-preserving update. -/
theorem getMsg_dbUpdate_ne (db : List AgentMessage) (i k : Nat)
    (f : AgentMessage → AgentMessage) (hf : ∀ m, (f m).id = m.id) (hk : k ≠ i) :
    getMsg (dbUpdate db i f) k = getMsg db k := by
  induction db with
  | nil => rfl
  | cons m rest ih =>
      simp only [dbUpdate, List.map_cons] at ih ⊢
      by_cases hmi : m.id = i
      · rw [if_pos hmi]
        have h1 : (f m).id = k → False := by
          rw [hf m, hmi]; exact fun hh => hk hh.symm
        have h2 : m.id = k → False := by
          rw [hmi]; exact fun hh => hk hh.symm
        rw [getMsg, if_neg h1, getMsg, if_neg h2]
        exact ih
      · rw [if_neg hmi]
        by_cases hmk : m.id = k
        · rw [getMsg, if_pos hmk, getMsg, if_pos hmk]
        · rw [getMsg, if_neg hmk, getMsg, if_neg hmk]
          exact ih

/-- Lookup of the updated id sees the update applied to the stored record. -/
theorem getMsg_dbUpdate_self (db : List AgentMessage) (i : Nat)
    (f : AgentMessage → AgentMessage) (hf : ∀ m, (f m).id = m.id) (m0 : AgentMessage)
    (h : getMsg db i = some m0) :
    getMsg (dbUpdate db i f) i = some (f m0) := by
  induction db with
  | nil => exact absurd h (by simp [getMsg])
  | cons m rest ih =>
      rw [getMsg] at h
      by_cases hmi : m.id = i
      · rw [if_pos hmi] at h
        injection h with h'
        subst h'
        simp only [dbUpdate, List.map_cons, if_pos hmi, getMsg]
        rw [if_pos ((hf m).trans hmi)]
      · rw [if_neg hmi] at h
        simp only [dbUpdate, List.map_cons, if_neg hmi, getMsg]
        exact ih h

/-- Records whose id is not updated stay in the table unchanged. -/
theorem mem_dbUpdate_of_ne (db : List AgentMessage) (i : Nat)
    (f : AgentMessage → AgentMessage) (x : AgentMessage) (hx : x ∈ db)
    (hne : x.id ≠ i) : x ∈ dbUpdate db i f := by
  have h : (fun m => if m.id = i then f m else m) x = x := if_neg hne
  exact h ▸ List.mem_map_of_mem _ hx

/-- An id-preserving update preserves the table's id column. -/
theorem dbUpdate_ids (db : List AgentMessage) (i : Nat)
    (f : AgentMessage → AgentMessage) (hf : ∀ m, (f m).id = m.id) :
    (dbUpdate db i f).map (fun x => x.id) = db.map (fun x => x.id) := by
  induction db with
  | nil => rfl
  | cons m rest ih =>
      simp only [dbUpdate, List.map_cons] at ih ⊢
      by_cases hmi : m.id = i
      · rw [if_pos hmi, hf m, ih]
      · rw [if_neg hmi, ih]

/-- With unique ids, lookup of a member's id finds that member. -/
theorem getMsg_of_mem_nodup (db : List AgentMessage) (m : AgentMessage) (hm : m ∈ db)
    (hnd : (db.map (fun x => x.id)).Nodup) : getMsg db m.id = some m := by
  induction db with
  | nil => cases hm
  | cons x rest ih =>
      simp only [List.map_cons, List.nodup_cons] at hnd
      rcases List.mem_cons.mp hm with rfl | hm'
      · simp [getMsg]
      · have hx : x.id = m.id → False := by
          intro hh
          exact hnd.1 (hh ▸ List.mem_map_of_mem _ hm')
        rw [getMsg, if_neg hx]
        exact ih hm' hnd.2

/-- With unique ids, two members sharing an id are the same record. -/
theorem eq_of_mem_of_id_eq (db : List AgentMessage)
    (hnd : (db.map (fun x => x.id)).Nodup) (x m : AgentMessage)
    (hx : x ∈ db) (hm : m ∈ db) (h : x.id = m.id) : x = m := by
  have h1 := getMsg_of_mem_nodup db x hx hnd
  have h2 := getMsg_of_mem_nodup db m hm hnd
  rw [h] at h1
  rw [h1] at h2
  injection h2

/-! ### One-message and batch lemmas for the poller -/

/-- One message produces exactly a `processing` write followed by its
terminal write. -/
theorem processOne_writes (env : PollEnv) (db : List AgentMessage) (m : AgentMessage) :
    (processOne env db m).2.1 = [(m.id, Status.processing), (m.id, terminalFor env m)] := by
  rcases ha : env.agents m.toAgent with _ | f
  · simp [processOne, terminalFor, ha]
  · rcases hr : f { msgFrom := m.fromAgent, intent := m.intent, payload := m.payload } with
      e | r <;> simp [processOne, terminalFor, ha, hr]

/-- One message invokes an agent exactly when its target is registered. -/
theorem processOne_invoked (env : PollEnv) (db : List AgentMessage) (m : AgentMessage) :
    (processOne env db m).2.2 =
      if (env.agents m.toAgent).isSome then [m.id] else [] := by
  rcases ha : env.agents m.toAgent with _ | f
  · simp [processOne, ha]
  · rcases hr : f { msgFrom := m.fromAgent, intent := m.intent, payload := m.payload } with
      e | r <;> simp [processOne, ha, hr]

/-- The terminal status is `processed` or `failed`, never anything else. -/
theorem terminalFor_cases (env : PollEnv) (m : AgentMessage) :
    terminalFor env m = Status.processed ∨ terminalFor env m = Status.failed := by
  rcases ha : env.agents m.toAgent with _ | f
  · simp [terminalFor, ha]
  · rcases hr : f { msgFrom := m.fromAgent, intent := m.intent, payload := m.payload } with
      e | r <;> simp [terminalFor, ha, hr]

/-- Processing one message leaves every other id's lookup unchanged. -/
theorem processOne_getMsg_ne (env : PollEnv) (db : List AgentMessage) (m : AgentMessage)
    (k : Nat) (hk : k ≠ m.id) :
    getMsg (processOne env db m).1 k = getMsg db k := by
  rcases ha : env.agents m.toAgent with _ | f
  · simp only [processOne, ha]
    rw [getMsg_dbUpdate_ne _ m.id k
        (fun r => { r with
            status := Status.failed,
            errorMessage := some ("Agent not found: " ++ m.toAgent) })
        (fun r => rfl) hk,
      getMsg_dbUpdate_ne db m.id k (fun r => { r with status := Status.processing })
        (fun r => rfl) hk]
  · rcases hr : f { msgFrom := m.fromAgent, intent := m.intent, payload := m.payload } with
      e | r
    · simp only [processOne, ha, hr]
      rw [getMsg_dbUpdate_ne _ m.id k
          (fun r => { r with status := Status.failed, errorMessage := some e })
          (fun r => rfl) hk,
        getMsg_dbUpdate_ne db m.id k (fun r => { r with status := Status.processing })
          (fun r => rfl) hk]
    · simp only [processOne, ha, hr]
      rw [getMsg_dbUpdate_ne _ m.id k
          (fun x => { x with
              status := Status.processed,
              processedAt := some env.now,
              result := some (Json.obj [("response", Json.str r)]) })
          (fun x => rfl) hk,
        getMsg_dbUpdate_ne db m.id k (fun x => { x with status := Status.processing })
          (fun x => rfl) hk]

/-- Processing one message rewrites its own record to the final record. -/
theorem processOne_getMsg_self (env : PollEnv) (db : List AgentMessage) (m : AgentMessage)
    (h : getMsg db m.id = some m) :
    getMsg (processOne env db m).1 m.id = some (finalRecordFor env m) := by
  rcases ha : env.agents m.toAgent with _ | f
  · simp only [processOne, ha]
    have h1 := getMsg_dbUpdate_self db m.id
      (fun r => { r with status := Status.processing }) (fun r => rfl) m h
    have h2 := getMsg_dbUpdate_self
      (dbUpdate db m.id (fun r => { r with status := Status.processing })) m.id
      (fun r => { r with
          status := Status.failed,
          errorMessage := some ("Agent not found: " ++ m.toAgent) })
      (fun r => rfl) _ h1
    rw [h2]
    simp [finalRecordFor, ha]
  · rcases hr : f { msgFrom := m.fromAgent, intent := m.intent, payload := m.payload } with
      e | r
    · simp only [processOne, ha, hr]
      have h1 := getMsg_dbUpdate_self db m.id
        (fun r => { r with status := Status.processing }) (fun r => rfl) m h
      have h2 := getMsg_dbUpdate_self
        (dbUpdate db m.id (fun r => { r with status := Status.processing })) m.id
        (fun r => { r with status := Status.failed, errorMessage := some e })
        (fun r => rfl) _ h1
      rw [h2]
      simp [finalRecordFor, ha, hr]
    · simp only [processOne, ha, hr]
      have h1 := getMsg_dbUpdate_self db m.id
        (fun x => { x with status := Status.processing }) (fun x => rfl) m h
      have h2 := getMsg_dbUpdate_self
        (dbUpdate db m.id (fun x => { x with status := Status.processing })) m.id
        (fun x => { x with
            status := Status.processed,
            processedAt := some env.now,
            result := some (Json.obj [("response", Json.str r)]) })
        (fun x => rfl) _ h1
      rw [h2]
      simp [finalRecordFor, ha, hr]

/-- Processing one message keeps every record with a different id. -/
theorem mem_processOne_of_ne (env : PollEnv) (db : List AgentMessage) (m x : AgentMessage)
    (hx : x ∈ db) (hne : x.id ≠ m.id) : x ∈ (processOne env db m).1 := by
  rcases ha : env.agents m.toAgent with _ | f
  · simp only [processOne, ha]
    exact mem_dbUpdate_of_ne _ _ _ _ (mem_dbUpdate_of_ne _ _ _ _ hx hne) hne
  · rcases hr : f { msgFrom := m.fromAgent, intent := m.intent, payload := m.payload } with
      e | r <;>
      · simp only [processOne, ha, hr]
        exact mem_dbUpdate_of_ne _ _ _ _ (mem_dbUpdate_of_ne _ _ _ _ hx hne) hne

/-- Processing one message preserves the id column. -/
theorem processOne_ids (env : PollEnv) (db : List AgentMessage) (m : AgentMessage) :
    (processOne env db m).1.map (fun x => x.id) = db.map (fun x => x.id) := by
  rcases ha : env.agents m.toAgent with _ | f
  · simp only [processOne, ha]
    rw [dbUpdate_ids _ m.id
        (fun r => { r with
            status := Status.failed,
            errorMessage := some ("Agent not found: " ++ m.toAgent) })
        (fun r => rfl),
      dbUpdate_ids db m.id (fun r => { r with status := Status.processing })
        (fun r => rfl)]
  · rcases hr : f { msgFrom := m.fromAgent, intent := m.intent, payload := m.payload } with
      e | r
    · simp only [processOne, ha, hr]
      rw [dbUpdate_ids _ m.id
          (fun r => { r with status := Status.failed, errorMessage := some e })
          (fun r => rfl),
        dbUpdate_ids db m.id (fun r => { r with status := Status.processing })
          (fun r => rfl)]
    · simp only [processOne, ha, hr]
      rw [dbUpdate_ids _ m.id
          (fun x => { x with
              status := Status.processed,
              processedAt := some env.now,
              result := some (Json.obj [("response", Json.str r)]) })
          (fun x => rfl),
        dbUpdate_ids db m.id (fun x => { x with status := Status.processing })
          (fun x => rfl)]

/-- The batch's writes are exactly `writesFor` of its messages. -/
theorem processBatch_writes (env : PollEnv) :
    ∀ batch db, (processBatch env db batch).2.1 = writesFor env batch := by
  intro batch
  induction batch with
  | nil => intro db; rfl
  | cons m rest ih =>
      intro db
      simp only [processBatch, writesFor]
      rw [processOne_writes, ih]
      rfl

/-- The batch's invocations are exactly `invokedFor` of its messages. -/
theorem processBatch_invoked (env : PollEnv) :
    ∀ batch db, (processBatch env db batch).2.2 = invokedFor env batch := by
  intro batch
  induction batch with
  | nil => intro db; rfl
  | cons m rest ih =>
      intro db
      simp only [processBatch, invokedFor]
      rw [processOne_invoked, ih]

/-- Ids untouched by the batch keep their lookup result. -/
theorem processBatch_getMsg_notin (env : PollEnv) :
    ∀ batch db k, (∀ m ∈ batch, m.id ≠ k) →
      getMsg (processBatch env db batch).1 k = getMsg db k := by
  intro batch
  induction batch with
  | nil => intro db k _; rfl
  | cons m rest ih =>
      intro db k hk
      simp only [processBatch]
      rw [ih (processOne env db m).1 k (fun x hx => hk x (List.mem_cons_of_mem m hx)),
        processOne_getMsg_ne env db m k
          (fun hh => hk m (List.mem_cons_self m rest) hh.symm)]

/-- A batch message's record ends as its final record. -/
theorem processBatch_getMsg_self (env : PollEnv) :
    ∀ batch db m, m ∈ batch → ((batch.map (fun x => x.id)).Nodup) →
      getMsg db m.id = some m →
      getMsg (processBatch env db batch).1 m.id = some (finalRecordFor env m) := by
  intro batch
  induction batch with
  | nil => intro db m hm; cases hm
  | cons x rest ih =>
      intro db m hm hnd h
      simp only [List.map_cons, List.nodup_cons] at hnd
      simp only [processBatch]
      rcases List.mem_cons.mp hm with rfl | hm'
      · have h1 := processOne_getMsg_self env db m h
        rw [processBatch_getMsg_notin env rest (processOne env db m).1 m.id
          (fun y hy hh => hnd.1 (hh ▸ List.mem_map_of_mem _ hy))]
        exact h1
      · have hx : m.id ≠ x.id := by
          intro hh
          exact hnd.1 (hh ▸ List.mem_map_of_mem _ hm')
        exact ih (processOne env db x).1 m hm' hnd.2
          (by rw [processOne_getMsg_ne env db x m.id hx]; exact h)

/-- Records outside the batch survive the batch unchanged. -/
theorem mem_processBatch_of_notin (env : PollEnv) :
    ∀ batch db x, x ∈ db → (∀ m ∈ batch, x.id ≠ m.id) →
      x ∈ (processBatch env db batch).1 := by
  intro batch
  induction batch with
  | nil => intro db x hx _; exact hx
  | cons m rest ih =>
      intro db x hx hk
      simp only [processBatch]
      exact ih (processOne env db m).1 x
        (mem_processOne_of_ne env db m x hx (hk m (List.mem_cons_self m rest)))
        (fun y hy => hk y (List.mem_cons_of_mem m hy))

/-- The batch preserves the id column. -/
theorem processBatch_ids (env : PollEnv) :
    ∀ batch db, (processBatch env db batch).1.map (fun x => x.id) =
      db.map (fun x => x.id) := by
  intro batch
  induction batch with
  | nil => intro db; rfl
  | cons m rest ih =>
      intro db
      simp only [processBatch]
      rw [ih, processOne_ids]

/-- Every write of a batch names one of its messages. -/
theorem writesFor_mem (env : PollEnv) :
    ∀ batch w, w ∈ writesFor env batch → ∃ m ∈ batch, w.1 = m.id := by
  intro batch
  induction batch with
  | nil => intro w hw; cases hw
  | cons m rest ih =>
      intro w hw
      rcases hw with _ | ⟨_, hw⟩
      · exact ⟨m, List.mem_cons_self m rest, rfl⟩
      · rcases hw with _ | ⟨_, hw⟩
        · exact ⟨m, List.mem_cons_self m rest, rfl⟩
        · obtain ⟨m2, hm2, he⟩ := ih w hw
          exact ⟨m2, List.mem_cons_of_mem m hm2, he⟩

/-- Every batch message receives its `processing` write. -/
theorem writesFor_processing_mem (env : PollEnv) :
    ∀ batch m, m ∈ batch → (m.id, Status.processing) ∈ writesFor env batch := by
  intro batch
  induction batch with
  | nil => intro m hm; cases hm
  | cons x rest ih =>
      intro m hm
      rcases List.mem_cons.mp hm with rfl | hm'
      · exact List.mem_cons_self _ _
      · exact List.mem_cons_of_mem _ (List.mem_cons_of_mem _ (ih m hm'))

/-- Every invocation of a batch names a message with a registered target. -/
theorem invokedFor_mem (env : PollEnv) :
    ∀ batch i, i ∈ invokedFor env batch →
      ∃ m ∈ batch, i = m.id ∧ (env.agents m.toAgent).isSome = true := by
  intro batch
  induction batch with
  | nil => intro i hi; cases hi
  | cons m rest ih =>
      intro i hi
      simp only [invokedFor] at hi
      rcases List.mem_append.mp hi with hl | hr
      · rcases hs : (env.agents m.toAgent).isSome with _ | _
        · rw [hs] at hl; cases hl
        · rw [hs] at hl
          rcases hl with _ | ⟨_, hl⟩
          · exact ⟨m, List.mem_cons_self m rest, rfl, hs⟩
          · cases hl
      · obtain ⟨m2, hm2, he, hs⟩ := ih i hr
        exact ⟨m2, List.mem_cons_of_mem m hm2, he, hs⟩

/-! ### Selection lemmas and claims C4, C5 -/

/-- Selected messages are pending members of the table. -/
theorem selectPending_sub (db : List AgentMessage) :
    ∀ m ∈ selectPending db, m.status = Status.pending ∧ m ∈ db := by
  intro m hm
  unfold selectPending at hm
  have h1 : m ∈ (db.filter (fun x => decide (x.status = Status.pending))).insertionSort
      (fun a b => a.createdAt ≤ b.createdAt) := (List.take_sublist _ _).subset hm
  have h2 : m ∈ db.filter (fun x => decide (x.status = Status.pending)) :=
    ((List.perm_insertionSort _ _).mem_iff).mp h1
  have h3 := List.mem_filter.mp h2
  exact ⟨of_decide_eq_true h3.2, h3.1⟩

/-- Selection preserves id uniqueness. -/
theorem selectPending_ids_nodup (db : List AgentMessage)
    (h : (db.map (fun x => x.id)).Nodup) :
    ((selectPending db).map (fun x => x.id)).Nodup := by
  unfold selectPending
  have h1 : ((db.filter (fun x => decide (x.status = Status.pending))).map
      (fun x => x.id)).Nodup :=
    h.sublist ((List.filter_sublist _).map _)
  have hperm := List.perm_insertionSort (fun a b : AgentMessage => a.createdAt ≤ b.createdAt)
    (db.filter (fun x => decide (x.status = Status.pending)))
  have h2 : (((db.filter (fun x => decide (x.status = Status.pending))).insertionSort
      (fun a b => a.createdAt ≤ b.createdAt)).map (fun x => x.id)).Nodup :=
    ((hperm.map _).nodup_iff).mpr h1
  exact h2.sublist ((List.take_sublist _ _).map _)

/-- One tick's writes, phrased on `processPendingMessages`. -/
theorem processPendingMessages_writes (env : PollEnv) (db : List AgentMessage) :
    (processPendingMessages env db).2.1 = writesFor env (selectPending db) :=
  processBatch_writes env (selectPending db) db

/-- One tick's invocations, phrased on `processPendingMessages`. -/
theorem processPendingMessages_invoked (env : PollEnv) (db : List AgentMessage) :
    (processPendingMessages env db).2.2 = invokedFor env (selectPending db) :=
  processBatch_invoked env (selectPending db) db

/-- One tick preserves the id column, phrased on `processPendingMessages`. -/
theorem processPendingMessages_ids (env : PollEnv) (db : List AgentMessage) :
    (processPendingMessages env db).1.map (fun x => x.id) = db.map (fun x => x.id) :=
  processBatch_ids env (selectPending db) db

/-- C4: enqueuing always creates a `pending` record; one poller pass writes,
for each selected message, first `processing` and then exactly one terminal
status (`processed` or `failed`); and a message already in a terminal status
is neither selected nor written again — it survives the pass unchanged. -/
theorem claim_c4_status_lifecycle (env : PollEnv) (db : List AgentMessage)
    (hnd : (db.map (fun x => x.id)).Nodup)
    (dbQ : QueueDB) (now : Nat) (p : SendParams) :
    (∃ msg, (sendAgentMessageHandler dbQ now p).1.messages = dbQ.messages ++ [msg] ∧
      msg.status = Status.pending ∧
      msg.id = (sendAgentMessageHandler dbQ now p).2.messageId) ∧
    ((processPendingMessages env db).2.1 = writesFor env (selectPending db) ∧
      ∀ m ∈ selectPending db,
        terminalFor env m = Status.processed ∨ terminalFor env m = Status.failed) ∧
    (∀ x ∈ db, x.status = Status.processed ∨ x.status = Status.failed →
      x ∈ (processPendingMessages env db).1 ∧
      ∀ w ∈ (processPendingMessages env db).2.1, w.1 ≠ x.id) := by
  refine ⟨⟨_, rfl, rfl, rfl⟩, ⟨?_, ?_⟩, ?_⟩
  · exact processPendingMessages_writes env db
  · intro m _hm
    exact terminalFor_cases env m
  · intro x hx hterm
    have hne : ∀ m ∈ selectPending db, x.id ≠ m.id := by
      intro m hm hh
      have hsp := selectPending_sub db m hm
      have hxm := eq_of_mem_of_id_eq db hnd x m hx hsp.2 hh
      rw [hxm] at hterm
      rcases hterm with h | h <;> rw [hsp.1] at h <;> exact absurd h (by decide)
    constructor
    · exact mem_processBatch_of_notin env (selectPending db) db x hx hne
    · intro w hw
      rw [processPendingMessages_writes] at hw
      obtain ⟨m, hm, he⟩ := writesFor_mem env (selectPending db) w hw
      rw [he]
      exact fun hh => hne m hm hh.symm

/-- Closed instance of C4: a concrete enqueue yields `pending`, and one tick
over a one-message table produces exactly the expected write sequence. -/
theorem claim_c4_status_lifecycle_witness :
    (∃ msg, (sendAgentMessageHandler (QueueDB.mk [] 0) 3
        { sendTo := "B", intent := "Ping", payload := Json.null,
          sendFrom := some "A" }).1.messages = [] ++ [msg] ∧
      msg.status = Status.pending ∧
      msg.id = (sendAgentMessageHandler (QueueDB.mk [] 0) 3
        { sendTo := "B", intent := "Ping", payload := Json.null,
          sendFrom := some "A" }).2.messageId) ∧
    (processPendingMessages
        { agents := fun n => if n = "B" then some (fun _ => Except.ok "done") else none,
          now := 5 }
        [{ id := 1, fromAgent := "A", toAgent := "B", intent := "Ping",
           payload := Json.null, status := Status.pending, createdAt := 1 }]).2.1 =
      writesFor
        { agents := fun n => if n = "B" then some (fun _ => Except.ok "done") else none,
          now := 5 }
        (selectPending
          [{ id := 1, fromAgent := "A", toAgent := "B", intent := "Ping",
             payload := Json.null, status := Status.pending, createdAt := 1 }]) := by
  have happ := claim_c4_status_lifecycle
    { agents := fun n => if n = "B" then some (fun _ => Except.ok "done") else none,
      now := 5 }
    [{ id := 1, fromAgent := "A", toAgent := "B", intent := "Ping",
       payload := Json.null, status := Status.pending, createdAt := 1 }]
    (by decide) (QueueDB.mk [] 0) 3
    { sendTo := "B", intent := "Ping", payload := Json.null, sendFrom := some "A" }
  exact ⟨happ.1, happ.2.1.1⟩

/-- C5: a selected message addressed to an unregistered agent ends the tick
`failed` with the non-empty `Agent not found` error (containing `not found`),
no agent's `reason` is invoked for it, every selected message of the batch
still gets its `processing` write, and the next tick performs no write for
that message. -/
theorem claim_c5_unknown_target_terminal (env : PollEnv) (db : List AgentMessage)
    (hnd : (db.map (fun x => x.id)).Nodup) (m : AgentMessage)
    (hm : m ∈ selectPending db) (hag : env.agents m.toAgent = none) :
    getMsg (processPendingMessages env db).1 m.id =
      some { m with
             status := Status.failed,
             errorMessage := some ("Agent not found: " ++ m.toAgent) } ∧
    ("Agent not found: " ++ m.toAgent) ≠ "" ∧
    containsSub "not found".toList ("Agent not found: " ++ m.toAgent).toList = true ∧
    (m.id ∈ (processPendingMessages env db).2.2 → False) ∧
    (∀ m2 ∈ selectPending db,
      (m2.id, Status.processing) ∈ (processPendingMessages env db).2.1) ∧
    (∀ w ∈ (processPendingMessages env (processPendingMessages env db).1).2.1,
      w.1 ≠ m.id) := by
  have hmdb := selectPending_sub db m hm
  have hbnd := selectPending_ids_nodup db hnd
  have hget := getMsg_of_mem_nodup db m hmdb.2 hnd
  have hfinal : finalRecordFor env m =
      { m with
        status := Status.failed,
        errorMessage := some ("Agent not found: " ++ m.toAgent) } := by
    simp [finalRecordFor, hag]
  have h1 : getMsg (processPendingMessages env db).1 m.id =
      some (finalRecordFor env m) :=
    processBatch_getMsg_self env (selectPending db) db m hm hbnd hget
  refine ⟨by rw [h1, hfinal], ?_, ?_, ?_, ?_, ?_⟩
  · intro hemp
    have h2 := congrArg String.data hemp
    rw [String.data_append] at h2
    have h3 := List.append_eq_nil.mp h2
    exact absurd h3.1 (by decide)
  · have hl : ("Agent not found: " ++ m.toAgent).toList =
        "Agent not found: ".toList ++ m.toAgent.toList := by
      simp [String.toList]
    rw [hl]
    exact containsSub_append_left _ _ _ (by decide)
  · intro hin
    rw [processPendingMessages_invoked] at hin
    obtain ⟨m2, hm2, he, hs⟩ := invokedFor_mem env (selectPending db) m.id hin
    have hm2db := selectPending_sub db m2 hm2
    have hmm : m2 = m := eq_of_mem_of_id_eq db hnd m2 m hm2db.2 hmdb.2 he.symm
    rw [hmm, hag] at hs
    simp at hs
  · intro m2 hm2
    rw [processPendingMessages_writes]
    exact writesFor_processing_mem env (selectPending db) m2 hm2
  · intro w hw hh
    have hnd2 : ((processPendingMessages env db).1.map (fun x => x.id)).Nodup := by
      rw [processPendingMessages_ids]
      exact hnd
    rw [processPendingMessages_writes] at hw
    obtain ⟨m2, hm2, he⟩ := writesFor_mem env
      (selectPending (processPendingMessages env db).1) w hw
    have hid : m2.id = m.id := he.symm.trans hh
    have hm2db2 := selectPending_sub (processPendingMessages env db).1 m2 hm2
    have hget2 := getMsg_of_mem_nodup (processPendingMessages env db).1 m2 hm2db2.2 hnd2
    rw [hid, h1, hfinal] at hget2
    injection hget2 with hget3
    have : m2.status = Status.failed := by rw [← hget3]
    rw [hm2db2.1] at this
    exact absurd this (by decide)

/-- Closed instance of C5: a pending message addressed to the unregistered
agent `Ghost` ends one tick as `failed` with the `Agent not found` error. -/
theorem claim_c5_unknown_target_terminal_witness :
    getMsg (processPendingMessages
        { agents := fun _ => none, now := 5 }
        [{ id := 1, fromAgent := "A", toAgent := "Ghost", intent := "Ping",
           payload := Json.null, status := Status.pending, createdAt := 1 }]).1 1 =
      some { id := 1, fromAgent := "A", toAgent := "Ghost", intent := "Ping",
             payload := Json.null, status := Status.failed, createdAt := 1,
             errorMessage := some ("Agent not found: " ++ "Ghost") } ∧
    containsSub "not found".toList ("Agent not found: " ++ "Ghost").toList = true := by
  have happ := claim_c5_unknown_target_terminal
    { agents := fun _ => none, now := 5 }
    [{ id := 1, fromAgent := "A", toAgent := "Ghost", intent := "Ping",
       payload := Json.null, status := Status.pending, createdAt := 1 }]
    (by decide)
    { id := 1, fromAgent := "A", toAgent := "Ghost", intent := "Ping",
      payload := Json.null, status := Status.pending, createdAt := 1 }
    (List.mem_cons_self _ _ :
      ({ id := 1, fromAgent := "A", toAgent := "Ghost", intent := "Ping",
         payload := Json.null, status := Status.pending,
         createdAt := 1 } : AgentMessage) ∈ selectPending
        [{ id := 1, fromAgent := "A", toAgent := "Ghost", intent := "Ping",
           payload := Json.null, status := Status.pending, createdAt := 1 }])
    rfl
  exact ⟨happ.1, happ.2.2.1⟩
